import Mathlib

/-!
Verification of the InstantSplat joint training script (`train_joint.py`).

The definitions below are a shallow embedding of the parts of the script that
the properties under study depend on: the per-iteration side-effect schedule,
background selection, the spherical-harmonics degree schedule, random view
sampling without replacement, the pose export (`save_pose`), the training
loss, the validation sweep of `training_report`, and the visualization sink
calls.  Machine reals are modelled by `ℚ`; fallible Python code (statements
that can raise) is modelled with `Except PyErr`.
-/

namespace InstantSplat

/-- Python exceptions raised by the modelled code paths: `ValueError` from
`list.index`, `IndexError` from list subscripting, and an arbitrary failure
raised inside a visualization sink call. -/
inductive PyErr where
  | valueError
  | indexError
  | sinkFailure
deriving DecidableEq, Repr

/-- The scheduled side effects performed inside an iteration of `training`
after the backward pass (`train_joint.py` lines 204-248). -/
inductive SideEffect where
  | report
  | sceneSave
  | vizSnapshot
  | optStep
  | rawCkpt
deriving DecidableEq, Repr

/-- The canonical textual order in which `training` writes its per-iteration
side effects: `training_report`, then the `saving_iterations` scene save with
pose export, then the periodic `log_3d_splats` snapshot, then the optimizer
step, then the `checkpoint_iterations` raw checkpoint. -/
def effectOrder : List SideEffect :=
  [SideEffect.report, SideEffect.sceneSave, SideEffect.vizSnapshot,
   SideEffect.optStep, SideEffect.rawCkpt]

/-- The side effects that fire at iteration `i` of a run of `T` total
iterations, in the order the `training` loop body executes them:
`training_report` is called unconditionally; `scene.save`/`save_pose` fire
when `i ∈ saving_iterations`; `log_3d_splats` fires when `i % 100 == 0` or
`i == 1`; the optimizer step (with gradient clearing) fires when `i < T`;
`torch.save` of the raw checkpoint fires when `i ∈ checkpoint_iterations`. -/
def sideEffects (i T : ℕ) (saving ckpt : List ℕ) : List SideEffect :=
  [SideEffect.report]
    ++ (if i ∈ saving then [SideEffect.sceneSave] else [])
    ++ (if i % 100 = 0 ∨ i = 1 then [SideEffect.vizSnapshot] else [])
    ++ (if i < T then [SideEffect.optStep] else [])
    ++ (if i ∈ ckpt then [SideEffect.rawCkpt] else [])

/-- Record of one loop iteration: the side effects emitted, the loss value
handed to `training_report`, and the gradient value consumed by the optimizer
step, when one is taken. -/
structure IterRecord where
  effects : List SideEffect
  reportedLoss : ℚ
  steppedWithGrad : Option ℚ
deriving Repr

/-- One iteration of the `training` loop over an abstract parameter state
(modelled as `ℚ`): the loss and gradient are computed first (lines 196-200),
then the scheduled side effects run under `torch.no_grad()`; only the
optimizer step (guarded by `i < T`) mutates the parameters, using the
gradient computed this iteration. -/
def runIteration (lossFn gradFn : ℚ → ℚ) (stepFn : ℚ → ℚ → ℚ)
    (params : ℚ) (i T : ℕ) (saving ckpt : List ℕ) : IterRecord × ℚ :=
  let loss := lossFn params
  let grad := gradFn params
  (⟨sideEffects i T saving ckpt, loss,
    if i < T then some grad else none⟩,
   if i < T then stepFn params grad else params)

/-- Number of iterations of a `T`-iteration run at which the optimizer step
fires (the loop runs `iteration` over `1, …, T`). -/
def optStepCount (T : ℕ) (saving ckpt : List ℕ) : ℕ :=
  ((List.range' 1 T).filter
    (fun i => decide (SideEffect.optStep ∈ sideEffects i T saving ckpt))).length

/-- Fixed background color (`train_joint.py` line 107):
`[1, 1, 1]` when `dataset.white_background` is set, else `[0, 0, 0]`. -/
def bg_color (white_background : Bool) : List ℚ :=
  if white_background then [1, 1, 1] else [0, 0, 0]

/-- Background selection of line 163-165: a fresh `torch.rand(3)` draw when
`opt.random_background` is set, otherwise the fixed `background`. -/
def chooseBackground (random_background : Bool) (draw background : List ℚ) :
    List ℚ :=
  if random_background then draw else background

/-- The background used at iteration `i`, with `draws i` the fresh random RGB
sample of that iteration. -/
def backgroundAt (random_background white_background : Bool)
    (draws : ℕ → List ℚ) (i : ℕ) : List ℚ :=
  chooseBackground random_background (draws i) (bg_color white_background)

/-- Modelled from the spec: `GaussianModel.oneupSHdegree` is outside this
file's source; per the spec it escalates the active spherical-harmonics
degree by one, saturating at the configured maximum, and never decreases. -/
def oneupSHdegree (deg maxDeg : ℕ) : ℕ :=
  if deg < maxDeg then deg + 1 else deg

/-- The SH escalation hook of lines 134-136: `oneupSHdegree` is invoked
exactly when `iteration % 1000 == 0`. -/
def shStep (i deg maxDeg : ℕ) : ℕ :=
  if i % 1000 = 0 then oneupSHdegree deg maxDeg else deg

/-- Active SH degree after completing iteration `i` (degree starts at 0
before iteration 1; the loop applies `shStep` at each iteration). -/
def active_sh_degree (maxDeg : ℕ) : ℕ → ℕ
  | 0 => 0
  | i + 1 => shStep (i + 1) (active_sh_degree maxDeg i) maxDeg

/-- View sampling of lines 139-143, run for `k` iterations from stack
`stack`, consuming random draws `rand off, rand (off+1), …`: when the stack
is empty it is refilled with the full camera list `all`; then
`viewpoint_stack.pop(randint(0, len(stack)-1))` removes one random element.
Returns the sampled views in order together with the final stack.  Views are
identified by their `uid`. -/
def sampleViews (all : List ℕ) (rand : ℕ → ℕ) :
    ℕ → List ℕ → ℕ → List ℕ × List ℕ
  | _, stack, 0 => ([], stack)
  | off, stack, k + 1 =>
    let s := if stack.isEmpty then all else stack
    let idx := rand off % s.length
    let rest := sampleViews all rand (off + 1) (s.eraseIdx idx) k
    (s.getD idx 0 :: rest.1, rest.2)

/-- Modelled from the spec: `get_camera_from_tensor`
(`instant_splat.utils.pose_utils`) is outside this file's source; per the
spec it maps a 7-vector (rotation quaternion `v 0 .. v 3`, translation
`v 4 .. v 6`) to a 4×4 world-to-camera transform, tolerating non-unit
quaternions by implicit renormalization (rotation entries are divided by the
squared quaternion norm, which makes them rational). -/
def get_camera_from_tensor (v : Fin 7 → ℚ) : Fin 4 → Fin 4 → ℚ :=
  let w := v 0
  let x := v 1
  let y := v 2
  let z := v 3
  let s := w ^ 2 + x ^ 2 + y ^ 2 + z ^ 2
  fun i j =>
    match i.val, j.val with
    | 0, 0 => (w ^ 2 + x ^ 2 - y ^ 2 - z ^ 2) / s
    | 0, 1 => 2 * (x * y - w * z) / s
    | 0, 2 => 2 * (x * z + w * y) / s
    | 0, 3 => v 4
    | 1, 0 => 2 * (x * y + w * z) / s
    | 1, 1 => (w ^ 2 - x ^ 2 + y ^ 2 - z ^ 2) / s
    | 1, 2 => 2 * (y * z - w * x) / s
    | 1, 3 => v 5
    | 2, 0 => 2 * (x * z - w * y) / s
    | 2, 1 => 2 * (y * z + w * x) / s
    | 2, 2 => (w ^ 2 - x ^ 2 - y ^ 2 + z ^ 2) / s
    | 2, 3 => v 6
    | 3, 3 => 1
    | _, _ => 0

/-- Sequencing of a fallible Python loop body over a list: the first raised
exception aborts the whole loop and propagates. -/
def mapExcept (f : α → Except PyErr β) : List α → Except PyErr (List β)
  | [] => .ok []
  | a :: l => do
    let b ← f a
    let bs ← mapExcept f l
    pure (b :: bs)

/-- One body of the `save_pose` collection loop (lines 48-52):
`ind = index_colmap.index(i + 1)` raises `ValueError` when `i + 1` is not a
colmap id, and `output_poses[ind]` raises `IndexError` when `ind` is out of
range. -/
def lookupColmapPose (output_poses : List (Fin 4 → Fin 4 → ℚ))
    (index_colmap : List ℕ) (i : ℕ) : Except PyErr (Fin 4 → Fin 4 → ℚ) :=
  if (i + 1) ∈ index_colmap then
    match output_poses.get? (index_colmap.indexOf (i + 1)) with
    | none => .error PyErr.indexError
    | some m => .ok m
  else .error PyErr.valueError

/-- `save_pose` (lines 41-54), with `index_colmap` the list of
`cam.colmap_id` of `train_cams` and `quat_pose` the parallel list of pose
vectors: every pose vector is turned into a transform, then for each `i`
below the camera count the pose of the camera with colmap id `i + 1` is
placed at position `i`.  The resulting dense array is what `np.save`
writes; a raised exception propagates before any file is written. -/
def save_pose (quat_pose : List (Fin 7 → ℚ)) (index_colmap : List ℕ) :
    Except PyErr (List (Fin 4 → Fin 4 → ℚ)) :=
  let output_poses := quat_pose.map get_camera_from_tensor
  mapExcept (lookupColmapPose output_poses index_colmap)
    (List.range index_colmap.length)

/-- Modelled from the spec: `l1_loss` (`instant_splat.utils.loss_utils`) is
outside this file's source; per the spec it is the mean pixelwise absolute
error.  Images are flattened to `Fin n → ℚ`. -/
def l1_loss (n : ℕ) (x y : Fin n → ℚ) : ℚ :=
  (∑ p, |x p - y p|) / n

/-- SSIM stability constant `C1 = 0.01²`. -/
def ssimC1 : ℚ := 1 / 10000

/-- SSIM stability constant `C2 = 0.03²`. -/
def ssimC2 : ℚ := 9 / 10000

/-- Windowed mean at pixel `p`: `W p q` is the (nonnegative) weight of pixel
`q` in the local window centred at `p`; the Gaussian window is normalized,
and zero padding at image borders makes each row of weights sum to at most
one. -/
def winMu (n : ℕ) (W : Fin n → Fin n → ℚ) (x : Fin n → ℚ) (p : Fin n) : ℚ :=
  ∑ q, W p q * x q

/-- Windowed variance at pixel `p`, computed as `E[x²] − E[x]²` under the
window weights, exactly as the convolution-based implementation does. -/
def winVar (n : ℕ) (W : Fin n → Fin n → ℚ) (x : Fin n → ℚ) (p : Fin n) : ℚ :=
  (∑ q, W p q * x q ^ 2) - winMu n W x p ^ 2

/-- Windowed covariance at pixel `p`. -/
def winCov (n : ℕ) (W : Fin n → Fin n → ℚ) (x y : Fin n → ℚ) (p : Fin n) : ℚ :=
  (∑ q, W p q * x q * y q) - winMu n W x p * winMu n W y p

/-- Modelled from the spec: per-pixel SSIM map of the fixed-window SSIM of
`instant_splat.utils.loss_utils` (outside this file's source), in its
standard form
`((2 μx μy + C1)(2 σxy + C2)) / ((μx² + μy² + C1)(σx² + σy² + C2))`. -/
def ssim_map (n : ℕ) (W : Fin n → Fin n → ℚ) (x y : Fin n → ℚ) (p : Fin n) :
    ℚ :=
  (2 * winMu n W x p * winMu n W y p + ssimC1) * (2 * winCov n W x y p + ssimC2) /
    ((winMu n W x p ^ 2 + winMu n W y p ^ 2 + ssimC1) *
      (winVar n W x p + winVar n W y p + ssimC2))

/-- Modelled from the spec: `ssim` is the mean of the per-pixel SSIM map. -/
def ssim (n : ℕ) (W : Fin n → Fin n → ℚ) (x y : Fin n → ℚ) : ℚ :=
  (∑ p, ssim_map n W x y p) / n

/-- The training loss of lines 196-199:
`(1 − λ_dssim) · L1(image, gt) + λ_dssim · (1 − SSIM(image, gt))`. -/
def train_loss (n : ℕ) (W : Fin n → Fin n → ℚ) (lambda_dssim : ℚ)
    (image gt_image : Fin n → ℚ) : ℚ :=
  (1 - lambda_dssim) * l1_loss n image gt_image +
    lambda_dssim * (1 - ssim n W image gt_image)

/-- `torch.clamp(·, 0.0, 1.0)` on one scalar. -/
def clamp01 (q : ℚ) : ℚ := max 0 (min 1 q)

/-- `torch.clamp(·, 0.0, 1.0)` applied pixelwise to an image. -/
def clampImage (n : ℕ) (img : Fin n → ℚ) : Fin n → ℚ :=
  fun p => clamp01 (img p)

/-- One validation view of `training_report`: the renderer output for the
view under the current scene and pose state, and its ground-truth image. -/
structure ValView (n : ℕ) where
  render : Fin n → ℚ
  gt : Fin n → ℚ

/-- The per-view-set body of the validation sweep (lines 308-344): an empty
camera list is skipped (`if config["cameras"] and len(...) > 0`), producing
no metrics; otherwise each view's rendered and ground-truth images are
clamped to `[0, 1]`, per-view mean L1 and PSNR are accumulated, and both are
divided by the number of views.  `psnrFn` abstracts the external
`psnr` metric kernel. -/
def validateSet (n : ℕ) (psnrFn : (Fin n → ℚ) → (Fin n → ℚ) → ℚ)
    (cams : List (ValView n)) : Option (ℚ × ℚ) :=
  if cams.isEmpty then none
  else
    some
      (((cams.map (fun c =>
          l1_loss n (clampImage n c.render) (clampImage n c.gt))).sum) /
          cams.length,
       ((cams.map (fun c =>
          psnrFn (clampImage n c.render) (clampImage n c.gt))).sum) /
          cams.length)

/-- The whole validation sweep: the `validation_configs` tuple holds the test
set first, then the train set; each is processed by `validateSet`
independently. -/
def validationSweep (n : ℕ) (psnrFn : (Fin n → ℚ) → (Fin n → ℚ) → ℚ)
    (testCams trainCams : List (ValView n)) :
    Option (ℚ × ℚ) × Option (ℚ × ℚ) :=
  (validateSet n psnrFn testCams, validateSet n psnrFn trainCams)

/-- The visualization sink calls a `training` iteration makes, in program
order: one `rr.log` camera transform per pose vector (lines 146-157), the
rendered-image and ground-truth-image logs (lines 182-195), and — when
`iteration % 100 == 0` or `iteration == 1` — the `log_3d_splats` snapshot
(lines 235-236). -/
inductive VisCall where
  | cameraPose (idx : ℕ)
  | renderImage
  | gtImage
  | splats
deriving DecidableEq, Repr

/-- The list of sink calls made at iteration `i` with `numCams` pose
vectors. -/
def visCalls (numCams i : ℕ) : List VisCall :=
  ((List.range numCams).map VisCall.cameraPose)
    ++ [VisCall.renderImage, VisCall.gtImage]
    ++ (if i % 100 = 0 ∨ i = 1 then [VisCall.splats] else [])

/-- Executes the sink calls in order exactly as the source does: none of the
`rr.log` / `log_3d_splats` call sites sits inside a `try`/`except`, so a
raised exception aborts the remaining calls and propagates to the loop. -/
def runVisWrites (sink : VisCall → Except PyErr Unit) :
    List VisCall → Except PyErr Unit
  | [] => .ok ()
  | c :: cs => do
    sink c
    runVisWrites sink cs

/-- Effect of one iteration's visualization writes on the training loop:
whatever `runVisWrites` produces is the iteration's own outcome. -/
def iterationVisEffect (numCams i : ℕ)
    (sink : VisCall → Except PyErr Unit) : Except PyErr Unit :=
  runVisWrites sink (visCalls numCams i)

theorem optStep_mem_sideEffects (i T : ℕ) (saving ckpt : List ℕ) :
    SideEffect.optStep ∈ sideEffects i T saving ckpt ↔ i < T := by
  simp only [sideEffects, List.mem_append, List.mem_singleton]
  split_ifs <;> simp_all

theorem filter_lt_range' (T : ℕ) (hT : 1 ≤ T) :
    (List.range' 1 T).filter (fun i => decide (i < T)) = List.range' 1 (T - 1) := by
  obtain ⟨n, rfl⟩ : ∃ n, T = n + 1 := ⟨T - 1, by omega⟩
  rw [List.range'_1_concat, List.filter_append]
  have h1 : (List.range' 1 n).filter (fun i => decide (i < n + 1)) =
      List.range' 1 n := by
    apply List.filter_eq_self.mpr
    intro a ha
    rw [List.mem_range'] at ha
    simp only [decide_eq_true_eq]
    omega
  have h2 : ([1 + n].filter (fun i => decide (i < n + 1))) = [] := by
    simp only [List.filter_cons, List.filter_nil, decide_eq_true_eq]
    rw [if_neg (by omega)]
  simp [h1, h2]

/-- C1: over a run of `T ≥ 1` total iterations, the optimizer step (with
gradient clearing) fires at iteration `i` exactly when `i < T`, hence it
fires at exactly `T - 1` of the `T` iterations and never at the final
iteration `T`. -/
theorem optimizer_steps_T_minus_one (T : ℕ) (saving ckpt : List ℕ)
    (hT : 1 ≤ T) :
    (∀ i, SideEffect.optStep ∈ sideEffects i T saving ckpt ↔ i < T) ∧
    optStepCount T saving ckpt = T - 1 ∧
    SideEffect.optStep ∉ sideEffects T T saving ckpt := by
  refine ⟨fun i => optStep_mem_sideEffects i T saving ckpt, ?_, ?_⟩
  · unfold optStepCount
    have hcong : (List.range' 1 T).filter
        (fun i => decide (SideEffect.optStep ∈ sideEffects i T saving ckpt)) =
        (List.range' 1 T).filter (fun i => decide (i < T)) := by
      apply List.filter_congr
      intro a _
      simp [optStep_mem_sideEffects]
    rw [hcong, filter_lt_range' T hT]
    simp
  · rw [optStep_mem_sideEffects]
    omega

/-- C1 witness: a run of 2 iterations steps the optimizer exactly once and
not at the final iteration. -/
theorem optimizer_steps_T_minus_one_witness :
    (∀ i, SideEffect.optStep ∈ sideEffects i 2 [] [] ↔ i < 2) ∧
    optStepCount 2 [] [] = 2 - 1 ∧
    SideEffect.optStep ∉ sideEffects 2 2 [] [] :=
  optimizer_steps_T_minus_one 2 [] [] (by decide)

/-- C2: every iteration's background is the freshly drawn random RGB sample
when `opt.random_background` is configured, and otherwise the fixed
configured background (`[1,1,1]` for white, `[0,0,0]` for black); the value
used at iteration `i` depends only on iteration `i`'s own fresh draw, so the
randomization is independent across iterations. -/
theorem background_selection (rb white : Bool) (draws draws' : ℕ → List ℚ)
    (i : ℕ) :
    (rb = true → backgroundAt rb white draws i = draws i) ∧
    (rb = false → backgroundAt rb white draws i = bg_color white) ∧
    bg_color true = [1, 1, 1] ∧
    bg_color false = [0, 0, 0] ∧
    (draws i = draws' i →
      backgroundAt rb white draws i = backgroundAt rb white draws' i) := by
  refine ⟨?_, ?_, rfl, rfl, ?_⟩
  · intro h
    simp [backgroundAt, chooseBackground, h]
  · intro h
    simp [backgroundAt, chooseBackground, h]
  · intro h
    simp [backgroundAt, chooseBackground, h]

/-- C2 witness: concrete instantiation of the background-selection facts. -/
theorem background_selection_witness :
    (true = true →
      backgroundAt true true (fun _ => [0, 0, 0]) 0 = [0, 0, 0]) ∧
    (true = false →
      backgroundAt true true (fun _ => [0, 0, 0]) 0 = bg_color true) ∧
    bg_color true = [1, 1, 1] ∧
    bg_color false = [0, 0, 0] ∧
    ([0, 0, 0] = ([0, 0, 0] : List ℚ) →
      backgroundAt true true (fun _ => [0, 0, 0]) 0 =
        backgroundAt true true (fun _ => [0, 0, 0]) 0) :=
  background_selection true true (fun _ => [0, 0, 0]) (fun _ => [0, 0, 0]) 0

/-- C3 (code-bug evidence): the visualization sink calls of one training
iteration are not wrapped in any exception handler, so a sink that raises
aborts the iteration: the error propagates out instead of being caught and
logged.  A sink that never raises leaves the iteration intact. -/
theorem vis_sink_exception_propagates :
    iterationVisEffect 1 1 (fun _ => Except.error PyErr.sinkFailure) =
      Except.error PyErr.sinkFailure ∧
    iterationVisEffect 1 1 (fun _ => Except.ok ()) = Except.ok () := by
  constructor <;> rfl

/-- C4: within an iteration, after loss and gradients are computed, the
fired side effects always occur as a subsequence of the canonical order
(report, scene save with pose export, visualization snapshot, optimizer
step, raw checkpoint); reporting always fires and each other effect fires
exactly under its schedule guard; the loss handed to reporting and the
gradient consumed by the optimizer step are the ones computed from the
pre-side-effect parameters, unaltered by the earlier side effects. -/
theorem side_effects_ordered (lossFn gradFn : ℚ → ℚ) (stepFn : ℚ → ℚ → ℚ)
    (params : ℚ) (i T : ℕ) (saving ckpt : List ℕ) :
    ((runIteration lossFn gradFn stepFn params i T saving ckpt).1.effects).Sublist
      effectOrder ∧
    SideEffect.report ∈
      (runIteration lossFn gradFn stepFn params i T saving ckpt).1.effects ∧
    (SideEffect.sceneSave ∈
      (runIteration lossFn gradFn stepFn params i T saving ckpt).1.effects ↔
        i ∈ saving) ∧
    (SideEffect.vizSnapshot ∈
      (runIteration lossFn gradFn stepFn params i T saving ckpt).1.effects ↔
        i % 100 = 0 ∨ i = 1) ∧
    (SideEffect.rawCkpt ∈
      (runIteration lossFn gradFn stepFn params i T saving ckpt).1.effects ↔
        i ∈ ckpt) ∧
    (runIteration lossFn gradFn stepFn params i T saving ckpt).1.reportedLoss =
      lossFn params ∧
    (runIteration lossFn gradFn stepFn params i T saving ckpt).1.steppedWithGrad =
      (if i < T then some (gradFn params) else none) ∧
    (runIteration lossFn gradFn stepFn params i T saving ckpt).2 =
      (if i < T then stepFn params (gradFn params) else params) := by
  refine ⟨?_, ?_, ?_, ?_, ?_, rfl, rfl, rfl⟩
  · show (sideEffects i T saving ckpt).Sublist effectOrder
    unfold sideEffects effectOrder
    split_ifs <;> decide
  · show SideEffect.report ∈ sideEffects i T saving ckpt
    simp [sideEffects]
  · show SideEffect.sceneSave ∈ sideEffects i T saving ckpt ↔ i ∈ saving
    simp only [sideEffects, List.mem_append, List.mem_singleton]
    split_ifs <;> simp_all
  · show SideEffect.vizSnapshot ∈ sideEffects i T saving ckpt ↔
      i % 100 = 0 ∨ i = 1
    simp only [sideEffects, List.mem_append, List.mem_singleton]
    split_ifs <;> simp_all
  · show SideEffect.rawCkpt ∈ sideEffects i T saving ckpt ↔ i ∈ ckpt
    simp only [sideEffects, List.mem_append, List.mem_singleton]
    split_ifs <;> simp_all

theorem active_sh_degree_closed (maxDeg i : ℕ) :
    active_sh_degree maxDeg i = min (i / 1000) maxDeg := by
  induction i with
  | zero => simp [active_sh_degree]
  | succ n ih =>
    simp only [active_sh_degree, shStep, oneupSHdegree, ih]
    split_ifs <;> omega

/-- C5: the SH degree-escalation hook fires exactly at iterations that are
multiples of 1000; the active degree after each iteration is non-decreasing,
unchanged at non-multiples of 1000, never exceeds the configured maximum,
and with maximum 3 it equals 3 from iteration 3000 on (in particular at
iteration 3001). -/
theorem sh_degree_schedule (maxDeg i : ℕ) (hi : 1 ≤ i) :
    active_sh_degree maxDeg (i - 1) ≤ active_sh_degree maxDeg i ∧
    (i % 1000 = 0 → active_sh_degree maxDeg i =
      oneupSHdegree (active_sh_degree maxDeg (i - 1)) maxDeg) ∧
    (i % 1000 ≠ 0 → active_sh_degree maxDeg i =
      active_sh_degree maxDeg (i - 1)) ∧
    active_sh_degree maxDeg i ≤ maxDeg ∧
    (maxDeg = 3 → 3000 ≤ i → active_sh_degree maxDeg i = 3) := by
  obtain ⟨n, rfl⟩ : ∃ n, i = n + 1 := ⟨i - 1, by omega⟩
  simp only [Nat.add_sub_cancel, active_sh_degree_closed]
  refine ⟨by omega, ?_, ?_, by omega, ?_⟩
  · intro h
    unfold oneupSHdegree
    split_ifs <;> omega
  · intro h
    omega
  · intro h3 hge
    omega

/-- C5 witness: with maximum degree 3, at iteration 3001 the degree is 3. -/
theorem sh_degree_schedule_witness :
    active_sh_degree 3 (3001 - 1) ≤ active_sh_degree 3 3001 ∧
    (3001 % 1000 = 0 → active_sh_degree 3 3001 =
      oneupSHdegree (active_sh_degree 3 (3001 - 1)) 3) ∧
    (3001 % 1000 ≠ 0 → active_sh_degree 3 3001 =
      active_sh_degree 3 (3001 - 1)) ∧
    active_sh_degree 3 3001 ≤ 3 ∧
    (3 = 3 → 3000 ≤ 3001 → active_sh_degree 3 3001 = 3) :=
  sh_degree_schedule 3 3001 (by omega)

theorem perm_get_cons_eraseIdx (l : List ℕ) : ∀ (i : ℕ) (h : i < l.length),
    List.Perm l (l.get ⟨i, h⟩ :: l.eraseIdx i) := by
  induction l with
  | nil => intro i h; simp at h
  | cons a t ih =>
    intro i h
    cases i with
    | zero => simp [List.eraseIdx]
    | succ n =>
      have hn : n < t.length := by simpa using h
      refine List.Perm.trans (List.Perm.cons a (ih n hn)) ?_
      exact List.Perm.swap (t.get ⟨n, hn⟩) a (t.eraseIdx n)

theorem sampleViews_exact (all : List ℕ) (rand : ℕ → ℕ) :
    ∀ (k off : ℕ) (stack : List ℕ), stack.length = k →
      List.Perm (sampleViews all rand off stack k).1 stack ∧
      (sampleViews all rand off stack k).2 = [] := by
  intro k
  induction k with
  | zero =>
    intro off stack hlen
    have hnil : stack = [] := List.length_eq_zero.mp hlen
    subst hnil
    simp [sampleViews]
  | succ k ih =>
    intro off stack hlen
    have hne : stack ≠ [] := by intro h; subst h; simp at hlen
    have hemp : stack.isEmpty = false := by simp [List.isEmpty_iff, hne]
    have hpos : 0 < stack.length := by omega
    have hidx : rand off % stack.length < stack.length := Nat.mod_lt _ hpos
    have herase : (stack.eraseIdx (rand off % stack.length)).length = k := by
      rw [List.length_eraseIdx_of_lt hidx]
      omega
    obtain ⟨ihp, ihs⟩ :=
      ih (off + 1) (stack.eraseIdx (rand off % stack.length)) herase
    have hunf : sampleViews all rand off stack (k + 1) =
        (stack.getD (rand off % stack.length) 0 ::
          (sampleViews all rand (off + 1)
            (stack.eraseIdx (rand off % stack.length)) k).1,
         (sampleViews all rand (off + 1)
            (stack.eraseIdx (rand off % stack.length)) k).2) := by
      simp [sampleViews, hemp]
    constructor
    · rw [hunf]
      have hgd : stack.getD (rand off % stack.length) 0 =
          stack.get ⟨rand off % stack.length, hidx⟩ := by
        rw [List.getD_eq_getElem _ _ hidx]
        rfl
      rw [hgd]
      exact List.Perm.trans (List.Perm.cons _ ihp)
        (perm_get_cons_eraseIdx stack _ hidx).symm
    · rw [hunf]
      exact ihs

/-- C6: a window of `N` consecutive iterations that begins at a pool refill
(empty `viewpoint_stack`), where `N` is the number of training views,
samples a permutation of the full view list — with distinct view ids, every
id is sampled exactly once — and leaves the stack empty again, so every
refill-aligned window of the run has this property; `rand` is an arbitrary
random oracle and `off` an arbitrary offset into it. -/
theorem view_sampling_epoch (all : List ℕ) (rand : ℕ → ℕ) (off : ℕ)
    (hne : all ≠ []) :
    List.Perm (sampleViews all rand off [] all.length).1 all ∧
    (sampleViews all rand off [] all.length).2 = [] ∧
    (all.Nodup → ∀ v ∈ all,
      (sampleViews all rand off [] all.length).1.count v = 1) := by
  obtain ⟨m, hm⟩ : ∃ m, all.length = m + 1 :=
    ⟨all.length - 1, by have := List.length_pos.mpr hne; omega⟩
  have hswap : sampleViews all rand off [] all.length =
      sampleViews all rand off all all.length := by
    rw [hm]
    simp [sampleViews]
  have hrun := sampleViews_exact all rand all.length off all rfl
  rw [hswap]
  refine ⟨hrun.1, hrun.2, ?_⟩
  intro hnd v hv
  rw [List.Perm.count_eq hrun.1]
  exact List.count_eq_one_of_mem hnd hv

/-- C6 witness: a two-view pool sampled for one aligned window. -/
theorem view_sampling_epoch_witness :
    List.Perm (sampleViews [5, 7] (fun _ => 0) 0 [] [5, 7].length).1 [5, 7] ∧
    (sampleViews [5, 7] (fun _ => 0) 0 [] [5, 7].length).2 = [] ∧
    ([5, 7].Nodup → ∀ v ∈ [5, 7],
      (sampleViews [5, 7] (fun _ => 0) 0 [] [5, 7].length).1.count v = 1) :=
  view_sampling_epoch [5, 7] (fun _ => 0) 0 (by decide)

theorem mapExcept_ok (f : α → Except PyErr β) (g : α → β) (l : List α)
    (h : ∀ a ∈ l, f a = .ok (g a)) : mapExcept f l = .ok (l.map g) := by
  induction l with
  | nil => rfl
  | cons a t ih =>
    rw [mapExcept, h a (List.mem_cons_self a t),
      ih (fun x hx => h x (List.mem_cons_of_mem a hx)), List.map_cons]
    rfl

theorem mapExcept_error (f : α → Except PyErr β) (l : List α) (e : PyErr)
    (hall : ∀ a ∈ l, (∃ b, f a = .ok b) ∨ f a = .error e)
    (hex : ∃ a ∈ l, f a = .error e) : mapExcept f l = .error e := by
  induction l with
  | nil =>
    rcases hex with ⟨a, ha, _⟩
    simp at ha
  | cons a t ih =>
    rcases hall a (List.mem_cons_self a t) with ⟨b, hb⟩ | hb
    · have ht : mapExcept f t = .error e := by
        apply ih (fun x hx => hall x (List.mem_cons_of_mem a hx))
        rcases hex with ⟨x, hx, hfx⟩
        rcases List.mem_cons.mp hx with rfl | hx'
        · rw [hfx] at hb
          cases hb
        · exact ⟨x, hx', hfx⟩
      rw [mapExcept, hb, ht]
      rfl
    · rw [mapExcept, hb]
      rfl

theorem save_pose_ok (quat_pose : List (Fin 7 → ℚ)) (ids : List ℕ)
    (hlen : quat_pose.length = ids.length)
    (hcover : ∀ i < ids.length, i + 1 ∈ ids) :
    save_pose quat_pose ids =
      .ok ((List.range ids.length).map
        (fun i => (quat_pose.map get_camera_from_tensor).getD
          (ids.indexOf (i + 1)) (fun _ _ => 0))) := by
  unfold save_pose
  apply mapExcept_ok
  intro i hi
  rw [List.mem_range] at hi
  have hmem := hcover i hi
  have hlt : ids.indexOf (i + 1) < ids.length :=
    List.indexOf_lt_length.mpr hmem
  have hlt' : ids.indexOf (i + 1) <
      (quat_pose.map get_camera_from_tensor).length := by
    rw [List.length_map, hlen]
    exact hlt
  unfold lookupColmapPose
  rw [if_pos hmem, List.get?_eq_get hlt', List.getD_eq_getElem _ _ hlt']
  rfl

/-- C7: under the unstated precondition that the `N` training cameras carry
colmap ids covering `{1, …, N}` (without duplicates) and the pose table is
parallel to the camera list, `save_pose` succeeds and position `i` of the
exported dense array is the 4×4 transform reconstructed from the pose vector
of the camera whose colmap id is `i + 1` — the export is ordered by
ascending original camera id via identifier lookup, not by pool or
iteration order. -/
theorem pose_export_ordered (quat_pose : List (Fin 7 → ℚ)) (ids : List ℕ)
    (hlen : quat_pose.length = ids.length)
    (hnd : ids.Nodup)
    (hcover : ∀ i < ids.length, i + 1 ∈ ids) :
    ∃ poses, save_pose quat_pose ids = .ok poses ∧
      poses.length = ids.length ∧
      ∀ i < ids.length, ∀ j, ∀ hj : j < ids.length,
        ids.get ⟨j, hj⟩ = i + 1 →
        poses.getD i (fun _ _ => 0) =
          get_camera_from_tensor (quat_pose.getD j (fun _ => 0)) := by
  refine ⟨_, save_pose_ok quat_pose ids hlen hcover, by simp, ?_⟩
  intro i hi j hj hget
  have hilen : i < ((List.range ids.length).map
      (fun i => (quat_pose.map get_camera_from_tensor).getD
        (ids.indexOf (i + 1)) (fun _ _ => 0))).length := by
    simpa using hi
  rw [List.getD_eq_getElem _ _ hilen, List.getElem_map, List.getElem_range]
  have hmem : (i + 1) ∈ ids := hcover i hi
  have hlt : ids.indexOf (i + 1) < ids.length :=
    List.indexOf_lt_length.mpr hmem
  have hio : ids.indexOf (i + 1) = j := by
    have h1 : ids.get ⟨ids.indexOf (i + 1), hlt⟩ = i + 1 :=
      List.indexOf_get hlt
    have h2 : (⟨ids.indexOf (i + 1), hlt⟩ : Fin ids.length) = ⟨j, hj⟩ :=
      (List.Nodup.get_inj_iff hnd).mp (h1.trans hget.symm)
    exact congrArg Fin.val h2
  rw [hio]
  have hjq : j < quat_pose.length := by
    rw [hlen]
    exact hj
  have hjm : j < (quat_pose.map get_camera_from_tensor).length := by
    simpa using hjq
  rw [List.getD_eq_getElem _ _ hjm, List.getElem_map,
    List.getD_eq_getElem _ _ hjq]

/-- C7 witness: a single camera with colmap id 1 and the zero pose vector. -/
theorem pose_export_ordered_witness :
    ∃ poses, save_pose [fun _ => (0 : ℚ)] [1] = .ok poses ∧
      poses.length = [1].length ∧
      ∀ i < [1].length, ∀ j, ∀ hj : j < [1].length,
        [1].get ⟨j, hj⟩ = i + 1 →
        poses.getD i (fun _ _ => 0) =
          get_camera_from_tensor
            (([fun _ => (0 : ℚ)] : List (Fin 7 → ℚ)).getD j (fun _ => 0)) :=
  pose_export_ordered [fun _ => 0] [1] rfl (by decide) (by decide)

/-- C10: with a pose table parallel to the camera list, `save_pose` has the
unstated precondition that the colmap ids cover `{1, …, N}`: when some
integer in `1..N` is missing it raises `ValueError` from the `list.index`
lookup (so nothing is written), and when the precondition holds it returns a
dense array of exactly `N` entries. -/
theorem save_pose_precondition (quat_pose : List (Fin 7 → ℚ)) (ids : List ℕ)
    (hlen : quat_pose.length = ids.length) :
    ((∃ i, i < ids.length ∧ (i + 1) ∉ ids) →
      save_pose quat_pose ids = .error PyErr.valueError) ∧
    ((∀ i < ids.length, (i + 1) ∈ ids) →
      ∃ poses, save_pose quat_pose ids = .ok poses ∧
        poses.length = ids.length) := by
  constructor
  · rintro ⟨i, hi, hmem⟩
    unfold save_pose
    apply mapExcept_error
    · intro a _
      by_cases hm : (a + 1) ∈ ids
      · left
        have hlt : ids.indexOf (a + 1) < ids.length :=
          List.indexOf_lt_length.mpr hm
        have hlt' : ids.indexOf (a + 1) <
            (quat_pose.map get_camera_from_tensor).length := by
          rw [List.length_map, hlen]
          exact hlt
        refine ⟨(quat_pose.map get_camera_from_tensor).get
          ⟨ids.indexOf (a + 1), hlt'⟩, ?_⟩
        unfold lookupColmapPose
        rw [if_pos hm, List.get?_eq_get hlt']
      · right
        unfold lookupColmapPose
        rw [if_neg hm]
    · refine ⟨i, List.mem_range.mpr hi, ?_⟩
      unfold lookupColmapPose
      rw [if_neg hmem]
  · intro hcover
    exact ⟨_, save_pose_ok quat_pose ids hlen hcover, by simp⟩

/-- C10 witness: a single camera with colmap id 1. -/
theorem save_pose_precondition_witness :
    ((∃ i, i < [1].length ∧ (i + 1) ∉ [1]) →
      save_pose [fun _ => (0 : ℚ)] [1] = .error PyErr.valueError) ∧
    ((∀ i < [1].length, (i + 1) ∈ [1]) →
      ∃ poses, save_pose [fun _ => (0 : ℚ)] [1] = .ok poses ∧
        poses.length = [1].length) :=
  save_pose_precondition [fun _ => 0] [1] rfl

theorem clamp01_mem_unit (q : ℚ) : 0 ≤ clamp01 q ∧ clamp01 q ≤ 1 := by
  unfold clamp01
  constructor
  · exact le_max_left 0 _
  · apply max_le
    · norm_num
    · exact min_le_left 1 q

theorem validateSet_nonempty (n : ℕ)
    (psnrFn : (Fin n → ℚ) → (Fin n → ℚ) → ℚ) (cams : List (ValView n))
    (h : cams ≠ []) :
    validateSet n psnrFn cams =
      some
        (((cams.map (fun c =>
            l1_loss n (clampImage n c.render) (clampImage n c.gt))).sum) /
            cams.length,
         ((cams.map (fun c =>
            psnrFn (clampImage n c.render) (clampImage n c.gt))).sum) /
            cams.length) := by
  unfold validateSet
  rw [if_neg]
  simp [List.isEmpty_iff, h]

/-- C9: the validation sweep tolerates an empty view set — each of the two
view sets (test first, then train) is skipped without producing metrics when
empty, and an empty set never contaminates the other set; for a non-empty
set the reported pair is the mean L1 and mean PSNR of the views with both
the rendered and the ground-truth image clamped pixelwise into `[0, 1]`
before the metric is computed, divided by the (strictly positive) view
count. -/
theorem validation_sweep_empty_and_clamped (n : ℕ)
    (psnrFn : (Fin n → ℚ) → (Fin n → ℚ) → ℚ)
    (testCams trainCams : List (ValView n)) :
    (testCams = [] →
      (validationSweep n psnrFn testCams trainCams).1 = none) ∧
    (trainCams = [] →
      (validationSweep n psnrFn testCams trainCams).2 = none) ∧
    (testCams ≠ [] →
      (validationSweep n psnrFn testCams trainCams).1 =
        some
          (((testCams.map (fun c =>
              l1_loss n (clampImage n c.render) (clampImage n c.gt))).sum) /
              testCams.length,
           ((testCams.map (fun c =>
              psnrFn (clampImage n c.render) (clampImage n c.gt))).sum) /
              testCams.length) ∧
        (0 : ℚ) < testCams.length) ∧
    (trainCams ≠ [] →
      (validationSweep n psnrFn testCams trainCams).2 =
        some
          (((trainCams.map (fun c =>
              l1_loss n (clampImage n c.render) (clampImage n c.gt))).sum) /
              trainCams.length,
           ((trainCams.map (fun c =>
              psnrFn (clampImage n c.render) (clampImage n c.gt))).sum) /
              trainCams.length) ∧
        (0 : ℚ) < trainCams.length) ∧
    (∀ img : Fin n → ℚ, ∀ p, 0 ≤ clampImage n img p ∧ clampImage n img p ≤ 1) := by
  refine ⟨?_, ?_, ?_, ?_, ?_⟩
  · intro h
    subst h
    rfl
  · intro h
    subst h
    rfl
  · intro h
    refine ⟨validateSet_nonempty n psnrFn testCams h, ?_⟩
    have := List.length_pos.mpr h
    exact_mod_cast this
  · intro h
    refine ⟨validateSet_nonempty n psnrFn trainCams h, ?_⟩
    have := List.length_pos.mpr h
    exact_mod_cast this
  · intro img p
    exact clamp01_mem_unit (img p)

/-- C9 witness: an empty test set is skipped while a one-view train set is
reported from clamped images. -/
theorem validation_sweep_empty_and_clamped_witness :
    (([] : List (ValView 1)) = [] →
      (validationSweep 1 (fun _ _ => 0) [] [⟨fun _ => 2, fun _ => 1/2⟩]).1 =
        none) ∧
    (([⟨fun _ => 2, fun _ => 1/2⟩] : List (ValView 1)) = [] →
      (validationSweep 1 (fun _ _ => 0) [] [⟨fun _ => 2, fun _ => 1/2⟩]).2 =
        none) ∧
    (([] : List (ValView 1)) ≠ [] →
      (validationSweep 1 (fun _ _ => 0) [] [⟨fun _ => 2, fun _ => 1/2⟩]).1 =
        some
          (((([] : List (ValView 1)).map (fun c =>
              l1_loss 1 (clampImage 1 c.render) (clampImage 1 c.gt))).sum) /
              ([] : List (ValView 1)).length,
           ((([] : List (ValView 1)).map (fun c =>
              (fun _ _ => (0 : ℚ)) (clampImage 1 c.render)
                (clampImage 1 c.gt))).sum) /
              ([] : List (ValView 1)).length) ∧
        (0 : ℚ) < ([] : List (ValView 1)).length) ∧
    (([⟨fun _ => 2, fun _ => 1/2⟩] : List (ValView 1)) ≠ [] →
      (validationSweep 1 (fun _ _ => 0) [] [⟨fun _ => 2, fun _ => 1/2⟩]).2 =
        some
          (((([⟨fun _ => 2, fun _ => 1/2⟩] : List (ValView 1)).map (fun c =>
              l1_loss 1 (clampImage 1 c.render) (clampImage 1 c.gt))).sum) /
              ([⟨fun _ => 2, fun _ => 1/2⟩] : List (ValView 1)).length,
           ((([⟨fun _ => 2, fun _ => 1/2⟩] : List (ValView 1)).map (fun c =>
              (fun _ _ => (0 : ℚ)) (clampImage 1 c.render)
                (clampImage 1 c.gt))).sum) /
              ([⟨fun _ => 2, fun _ => 1/2⟩] : List (ValView 1)).length) ∧
        (0 : ℚ) < ([⟨fun _ => 2, fun _ => 1/2⟩] : List (ValView 1)).length) ∧
    (∀ img : Fin 1 → ℚ, ∀ p, 0 ≤ clampImage 1 img p ∧ clampImage 1 img p ≤ 1) :=
  validation_sweep_empty_and_clamped 1 (fun _ _ => 0) []
    [⟨fun _ => 2, fun _ => 1/2⟩]

theorem weighted_sq_le (n : ℕ) (w z : Fin n → ℚ) (hw : ∀ q, 0 ≤ w q)
    (hw1 : (∑ q, w q) ≤ 1) :
    (∑ q, w q * z q) ^ 2 ≤ ∑ q, w q * z q ^ 2 := by
  have hz2 : 0 ≤ ∑ q, w q * z q ^ 2 :=
    Finset.sum_nonneg fun q _ => mul_nonneg (hw q) (sq_nonneg _)
  have hcs : (∑ q, w q * z q) ^ 2 ≤ (∑ q, w q) * ∑ q, w q * z q ^ 2 := by
    have := Finset.sum_sq_le_sum_mul_sum_of_sq_eq_mul
      (Finset.univ : Finset (Fin n)) (r := fun q => w q * z q)
      (f := fun q => w q) (g := fun q => w q * z q ^ 2)
      (fun q _ => hw q) (fun q _ => mul_nonneg (hw q) (sq_nonneg _))
      (fun q _ => by ring)
    simpa using this
  calc (∑ q, w q * z q) ^ 2 ≤ (∑ q, w q) * ∑ q, w q * z q ^ 2 := hcs
    _ ≤ 1 * ∑ q, w q * z q ^ 2 := mul_le_mul_of_nonneg_right hw1 hz2
    _ = ∑ q, w q * z q ^ 2 := one_mul _

theorem winVar_nonneg (n : ℕ) (W : Fin n → Fin n → ℚ) (x : Fin n → ℚ)
    (p : Fin n) (hw : ∀ q, 0 ≤ W p q) (hrow : (∑ q, W p q) ≤ 1) :
    0 ≤ winVar n W x p := by
  unfold winVar winMu
  have := weighted_sq_le n (fun q => W p q) x hw hrow
  linarith

theorem winCov_upper (n : ℕ) (W : Fin n → Fin n → ℚ) (x y : Fin n → ℚ)
    (p : Fin n) (hw : ∀ q, 0 ≤ W p q) (hrow : (∑ q, W p q) ≤ 1) :
    2 * winCov n W x y p ≤ winVar n W x p + winVar n W y p := by
  have hdiff : winVar n W x p + winVar n W y p - 2 * winCov n W x y p =
      (∑ q, W p q * (x q - y q) ^ 2) - (∑ q, W p q * (x q - y q)) ^ 2 := by
    unfold winVar winCov winMu
    have e1 : (∑ q, W p q * (x q - y q) ^ 2) =
        (∑ q, W p q * x q ^ 2) - 2 * (∑ q, W p q * x q * y q) +
          (∑ q, W p q * y q ^ 2) := by
      have hterm : ∀ q : Fin n, W p q * (x q - y q) ^ 2 =
          W p q * x q ^ 2 - 2 * (W p q * x q * y q) + W p q * y q ^ 2 :=
        fun q => by ring
      rw [Finset.sum_congr rfl fun q _ => hterm q, Finset.sum_add_distrib,
        Finset.sum_sub_distrib, ← Finset.mul_sum]
    have e2 : (∑ q, W p q * (x q - y q)) =
        (∑ q, W p q * x q) - ∑ q, W p q * y q := by
      rw [← Finset.sum_sub_distrib]
      exact Finset.sum_congr rfl fun q _ => by ring
    rw [e1, e2]
    ring
  have hjen := weighted_sq_le n (fun q => W p q) (fun q => x q - y q) hw hrow
  linarith

/-- The responsibility of zero padding: with nonnegative window weights the
SSIM map never exceeds one when pixel values are nonnegative. -/
theorem ssim_map_le_one (n : ℕ) (W : Fin n → Fin n → ℚ) (x y : Fin n → ℚ)
    (p : Fin n) (hw : ∀ q, 0 ≤ W p q) (hrow : (∑ q, W p q) ≤ 1)
    (hx : ∀ q, 0 ≤ x q) (hy : ∀ q, 0 ≤ y q) :
    ssim_map n W x y p ≤ 1 := by
  have hμx : 0 ≤ winMu n W x p := by
    unfold winMu
    exact Finset.sum_nonneg fun q _ => mul_nonneg (hw q) (hx q)
  have hμy : 0 ≤ winMu n W y p := by
    unfold winMu
    exact Finset.sum_nonneg fun q _ => mul_nonneg (hw q) (hy q)
  have hvarx := winVar_nonneg n W x p hw hrow
  have hvary := winVar_nonneg n W y p hw hrow
  have hcov := winCov_upper n W x y p hw hrow
  have hB1 : 0 < winMu n W x p ^ 2 + winMu n W y p ^ 2 + ssimC1 := by
    have h1 := sq_nonneg (winMu n W x p)
    have h2 := sq_nonneg (winMu n W y p)
    norm_num [ssimC1]
    linarith
  have hB2 : 0 < winVar n W x p + winVar n W y p + ssimC2 := by
    norm_num [ssimC2]
    linarith
  have hA1 : 0 ≤ 2 * winMu n W x p * winMu n W y p + ssimC1 := by
    have := mul_nonneg hμx hμy
    norm_num [ssimC1]
    linarith
  have hA1B1 : 2 * winMu n W x p * winMu n W y p + ssimC1 ≤
      winMu n W x p ^ 2 + winMu n W y p ^ 2 + ssimC1 := by
    nlinarith [sq_nonneg (winMu n W x p - winMu n W y p)]
  rw [ssim_map, div_le_one (mul_pos hB1 hB2)]
  rcases le_or_lt 0 (2 * winCov n W x y p + ssimC2) with hA2 | hA2
  · have hA2B2 : 2 * winCov n W x y p + ssimC2 ≤
        winVar n W x p + winVar n W y p + ssimC2 := by linarith
    exact mul_le_mul hA1B1 hA2B2 hA2 (le_of_lt hB1)
  · have hle : (2 * winMu n W x p * winMu n W y p + ssimC1) *
        (2 * winCov n W x y p + ssimC2) ≤ 0 :=
      mul_nonpos_of_nonneg_of_nonpos hA1 (le_of_lt hA2)
    exact le_trans hle (le_of_lt (mul_pos hB1 hB2))

theorem ssim_le_one (n : ℕ) (W : Fin n → Fin n → ℚ) (x y : Fin n → ℚ)
    (hw : ∀ p q, 0 ≤ W p q) (hrow : ∀ p, (∑ q, W p q) ≤ 1)
    (hx : ∀ q, 0 ≤ x q) (hy : ∀ q, 0 ≤ y q) :
    ssim n W x y ≤ 1 := by
  unfold ssim
  rcases Nat.eq_zero_or_pos n with h0 | hp
  · subst h0
    simp
  · rw [div_le_one (by exact_mod_cast hp : (0 : ℚ) < n)]
    calc (∑ p, ssim_map n W x y p) ≤ ∑ _p : Fin n, (1 : ℚ) :=
        Finset.sum_le_sum fun p _ => ssim_map_le_one n W x y p (hw p) (hrow p) hx hy
      _ = n := by simp

theorem ssim_self (n : ℕ) (W : Fin n → Fin n → ℚ) (x : Fin n → ℚ)
    (hw : ∀ p q, 0 ≤ W p q) (hrow : ∀ p, (∑ q, W p q) ≤ 1) (hn : 0 < n) :
    ssim n W x x = 1 := by
  have hmap : ∀ p, ssim_map n W x x p = 1 := by
    intro p
    have hvar := winVar_nonneg n W x p (hw p) (hrow p)
    have hcov : winCov n W x x p = winVar n W x p := by
      unfold winCov winVar winMu
      rw [show (∑ q, W p q * x q * x q) = ∑ q, W p q * x q ^ 2 from
        Finset.sum_congr rfl fun q _ => by ring]
      ring
    rw [ssim_map, hcov]
    rw [show (winMu n W x p ^ 2 + winMu n W x p ^ 2 + ssimC1) *
        (winVar n W x p + winVar n W x p + ssimC2) =
        (2 * winMu n W x p * winMu n W x p + ssimC1) *
          (2 * winVar n W x p + ssimC2) from by ring]
    apply div_self
    apply ne_of_gt
    apply mul_pos
    · have := mul_self_nonneg (winMu n W x p)
      norm_num [ssimC1]
      linarith
    · norm_num [ssimC2]
      linarith
  unfold ssim
  rw [Finset.sum_congr rfl fun p _ => hmap p]
  rw [Finset.sum_const, Finset.card_univ, Fintype.card_fin]
  rw [nsmul_eq_mul, mul_one, div_self]
  exact Nat.cast_ne_zero.mpr (by omega)

/-- C8: the per-iteration training loss is exactly
`(1 − λ)·L1 + λ·(1 − SSIM)` with `λ = opt.lambda_dssim`; for `λ ∈ [0,1]`,
nonnegative normalized window weights, and pixel values clamped to `[0,1]`,
the loss is nonnegative (finite by construction over `ℚ`), and it is zero
when the rendered image equals the ground truth. -/
theorem training_loss_form (n : ℕ) (W : Fin n → Fin n → ℚ) (lam : ℚ)
    (x y : Fin n → ℚ) (hlam0 : 0 ≤ lam) (hlam1 : lam ≤ 1)
    (hw : ∀ p q, 0 ≤ W p q) (hrow : ∀ p, (∑ q, W p q) ≤ 1)
    (hx : ∀ p, 0 ≤ x p ∧ x p ≤ 1) (hy : ∀ p, 0 ≤ y p ∧ y p ≤ 1)
    (hn : 0 < n) :
    train_loss n W lam x y =
      (1 - lam) * l1_loss n x y + lam * (1 - ssim n W x y) ∧
    0 ≤ train_loss n W lam x y ∧
    (x = y → train_loss n W lam x y = 0) := by
  refine ⟨rfl, ?_, ?_⟩
  · have hl1 : 0 ≤ l1_loss n x y := by
      unfold l1_loss
      exact div_nonneg (Finset.sum_nonneg fun p _ => abs_nonneg _)
        (Nat.cast_nonneg n)
    have hs : ssim n W x y ≤ 1 :=
      ssim_le_one n W x y hw hrow (fun p => (hx p).1) (fun p => (hy p).1)
    unfold train_loss
    have h1 : 0 ≤ (1 - lam) * l1_loss n x y :=
      mul_nonneg (by linarith) hl1
    have h2 : 0 ≤ lam * (1 - ssim n W x y) :=
      mul_nonneg hlam0 (by linarith)
    linarith
  · intro hxy
    subst hxy
    unfold train_loss
    have hl1 : l1_loss n x x = 0 := by
      unfold l1_loss
      simp
    rw [hl1, ssim_self n W x hw hrow hn]
    ring

/-- C8 witness: one-pixel images with a half-weight window. -/
theorem training_loss_form_witness :
    train_loss 1 (fun _ _ => 1/2) (1/2) (fun _ => 1/2) (fun _ => 0) =
      (1 - 1/2) * l1_loss 1 (fun _ => 1/2) (fun _ => 0) +
        (1/2) * (1 - ssim 1 (fun _ _ => 1/2) (fun _ => 1/2) (fun _ => 0)) ∧
    0 ≤ train_loss 1 (fun _ _ => 1/2) (1/2) (fun _ => 1/2) (fun _ => 0) ∧
    ((fun _ : Fin 1 => (1 : ℚ)/2) = (fun _ => 0) →
      train_loss 1 (fun _ _ => 1/2) (1/2) (fun _ => 1/2) (fun _ => 0) = 0) :=
  training_loss_form 1 (fun _ _ => 1/2) (1/2) (fun _ => 1/2) (fun _ => 0)
    (by norm_num) (by norm_num) (fun p q => by norm_num)
    (fun p => by norm_num [Fin.sum_univ_one])
    (fun p => by norm_num) (fun p => by norm_num) (by norm_num)

end InstantSplat
